import Mathlib

/-!
Shallow embedding of the Connect-Four style TUI game (src/main.rs).

The Rust program keeps a single mutable `App` value:

  struct App { board: [[Field; 7]; 6], turn: Turn, input: String }

and the whole game logic is the method `App::turn` (the spec calls it
`commit_turn`), together with the event-loop handling of digit keys
(push onto `input`), backspace (`input.pop()`), and Enter (`turn()`).
The renderer `App::board_canvas` paints one 40x40 rectangle per
non-Empty cell at (column*50, row*50).

We embed the board as a function `Fin 6 → Fin 7 → Field` (the Rust array
type `[[Field; 7]; 6]` indexed by row then column), strings as `List Char`,
and `usize` parsing (`str::parse::<usize>`) as `parseUsize`, including the
leading `+` and the 64-bit overflow check of Rust's `from_str`.
-/

namespace CF

/-- Rust `enum Turn { Red, Blue }`. -/
inductive Turn where
  | Red : Turn
  | Blue : Turn
deriving DecidableEq, Repr

/-- Rust `enum Field { Empty, Red, Blue }`. -/
inductive Field where
  | Empty : Field
  | Red : Field
  | Blue : Field
deriving DecidableEq, Repr

/-- Rust `impl Into<Field> for Turn`. -/
def Turn.toField : Turn → Field
  | Turn.Red => Field.Red
  | Turn.Blue => Field.Blue

/-- The `match self.turn { Red => Blue, Blue => Red }` at the end of `App::turn`. -/
def Turn.other : Turn → Turn
  | Turn.Red => Turn.Blue
  | Turn.Blue => Turn.Red

/-- The board type `[[Field; 7]; 6]`: row index (0 = bottom) then column index. -/
abbrev Board := Fin 6 → Fin 7 → Field

/-- Rust `struct App`: board, active player, pending input buffer. -/
structure App where
  board : Board
  turn : Turn
  input : List Char

/-- Rust `App::new()`: all-Empty board, Red to move, empty buffer. -/
def App.new : App :=
  { board := fun _ _ => Field.Empty, turn := Turn.Red, input := [] }

/-- The `Field::Empty` test of the row-scanning loop in `App::turn`. -/
def Field.isEmpty : Field → Bool
  | Field.Empty => true
  | _ => false

/-- Digit-accumulation loop of Rust `usize::from_str`: each char must be a
decimal digit, the accumulator is `acc * 10 + digit`, checked against
`usize` overflow (64-bit). -/
def parseDigitsAcc : Nat → List Char → Option Nat
  | acc, [] => some acc
  | acc, ch :: rest =>
    if ch.isDigit then
      let v := acc * 10 + (ch.toNat - 48)
      if v < 2 ^ 64 then parseDigitsAcc v rest else none
    else none

/-- Rust `self.input.parse::<usize>()` (`usize::from_str`): an optional
leading `+`, then a non-empty run of decimal digits, rejecting overflow. -/
def parseUsize (cs : List Char) : Option Nat :=
  match cs with
  | [] => none
  | ch :: rest =>
    if ch = '+' then (if rest = [] then none else parseDigitsAcc 0 rest)
    else parseDigitsAcc 0 cs

/-- Numeric value of a digit string (no validity or overflow checks);
used to state properties of `parseUsize`. -/
def natValue (cs : List Char) : Nat :=
  cs.foldl (fun acc ch => acc * 10 + (ch.toNat - 48)) 0

/-- The row-scanning loop of `App::turn` over a list of row indices:
return the first index whose cell in column `c` is Empty. -/
def scanCol (b : Board) (c : Fin 7) : List (Fin 6) → Option (Fin 6)
  | [] => none
  | i :: rest => if (b i c).isEmpty then some i else scanCol b c rest

/-- The loop `i = 0; loop { if i >= board.len() return; match board[i][column]
{ Empty => break, _ => i += 1 } }`: first Empty row of column `c`, scanning
upward from row 0. -/
def findLanding (b : Board) (c : Fin 7) : Option (Fin 6) :=
  scanCol b c (List.finRange 6)

/-- The `let column = column - 1` of `App::turn`, as a `Fin 7`: the 0-indexed
column targeted by the 1-indexed number `column`, once the range check
`column == 0 || column > 7` has failed. -/
def colIndex (column : Nat) (h : ¬(column = 0 ∨ 7 < column)) : Fin 7 :=
  ⟨column - 1, by omega⟩

/-- Rust `App::turn` (the spec's `commit_turn`): parse the buffer as `usize`
(no-op on failure), reject 0 and columns beyond `board[0].len() = 7`
(no-op), scan for the first Empty row of column `n-1` (no-op when full),
otherwise place the current player's token there, clear the buffer and
switch the player. -/
def App.commit_turn (a : App) : App :=
  match parseUsize a.input with
  | none => a
  | some column =>
    if h : column = 0 ∨ 7 < column then a
    else
      match findLanding a.board (colIndex column h) with
      | none => a
      | some i =>
        { board := fun i' c' =>
            if i' = i ∧ c' = colIndex column h then a.turn.toField
            else a.board i' c',
          turn := a.turn.other,
          input := [] }

/-- Event-loop digit handling: `KeyCode::Char(c) => if c.is_digit(10)
{ self.input.push(c) }`. -/
def App.pushDigit (a : App) (c : Char) : App :=
  if c.isDigit then { a with input := a.input ++ [c] } else a

/-- Event-loop backspace handling: `KeyCode::Backspace => { self.input.pop(); }`. -/
def App.popDigit (a : App) : App :=
  { a with input := a.input.dropLast }

/-- The three state-changing operations the event loop can perform. -/
inductive Op where
  | push : Char → Op
  | pop : Op
  | commit : Op

/-- Apply one operation to the app state. -/
def applyOp (a : App) : Op → App
  | Op.push c => a.pushDigit c
  | Op.pop => a.popDigit
  | Op.commit => a.commit_turn

/-- Apply a sequence of operations from left to right. -/
def applyOps (a : App) (ops : List Op) : App :=
  ops.foldl applyOp a

/-- Whether `commit_turn` would succeed in placing a token from state `a`:
the buffer parses, the column number is in range, and the column has an
Empty cell. -/
def App.moveOk (a : App) : Bool :=
  match parseUsize a.input with
  | none => false
  | some column =>
    if h : column = 0 ∨ 7 < column then false
    else (findLanding a.board (colIndex column h)).isSome

/-- Number of successful placements performed by a sequence of operations
starting from state `a`. -/
def countPlacements (a : App) : List Op → Nat
  | [] => 0
  | Op.push c :: ops => countPlacements (a.pushDigit c) ops
  | Op.pop :: ops => countPlacements a.popDigit ops
  | Op.commit :: ops => (if a.moveOk then 1 else 0) + countPlacements a.commit_turn ops

/-- Gravity predicate: in every column, every Empty cell lies strictly above
every non-Empty cell (row 0 is the bottom). -/
def gravityOK (b : Board) : Prop :=
  ∀ (j : Fin 7) (i i' : Fin 6),
    b i j = Field.Empty → b i' j ≠ Field.Empty → i' < i

/-- The two colors `ratatui::Color::Red` / `Color::Blue` used for board
rectangles. -/
inductive RectColor where
  | Red : RectColor
  | Blue : RectColor
deriving DecidableEq, Repr

/-- The `ratatui::widgets::canvas::Rectangle` data drawn by
`App::board_canvas`; all coordinates produced by the program are exact
small integers, so we use `Nat`. -/
structure Rectangle where
  x : Nat
  y : Nat
  width : Nat
  height : Nat
  color : RectColor
deriving DecidableEq, Repr

/-- The rectangle (if any) drawn for cell `(i, j)` holding `f`:
Empty draws nothing, Blue and Red draw a 40x40 rectangle at
`(j * 50, i * 50)` in the matching color. -/
def fieldRect (i : Fin 6) (j : Fin 7) : Field → Option Rectangle
  | Field.Empty => none
  | Field.Blue => some ⟨(j : Nat) * 50, (i : Nat) * 50, 40, 40, RectColor.Blue⟩
  | Field.Red => some ⟨(j : Nat) * 50, (i : Nat) * 50, 40, 40, RectColor.Red⟩

/-- The paint closure of `App::board_canvas`: iterate rows (outer) and
columns (inner), drawing one rectangle per non-Empty cell. -/
def boardRects (b : Board) : List Rectangle :=
  (List.finRange 6).flatMap fun i =>
    (List.finRange 7).filterMap fun j => fieldRect i j (b i j)

theorem Field.isEmpty_iff (f : Field) : f.isEmpty = true ↔ f = Field.Empty := by
  cases f <;> simp [Field.isEmpty]

theorem Field.isEmpty_false_iff (f : Field) : f.isEmpty = false ↔ f ≠ Field.Empty := by
  cases f <;> simp [Field.isEmpty]

theorem Turn.toField_ne_empty (t : Turn) : t.toField ≠ Field.Empty := by
  cases t <;> simp [Turn.toField]

theorem Turn.other_other (t : Turn) : t.other.other = t := by
  cases t <;> rfl

theorem scanCol_some_spec (b : Board) (c : Fin 7) :
    ∀ (l : List (Fin 6)) (j : Fin 6), l.Pairwise (· < ·) → scanCol b c l = some j →
      b j c = Field.Empty ∧ ∀ j' ∈ l, j' < j → b j' c ≠ Field.Empty := by
  intro l
  induction l with
  | nil => intro j _ h; simp [scanCol] at h
  | cons i rest ih =>
    intro j hpw h
    rw [List.pairwise_cons] at hpw
    rw [scanCol] at h
    by_cases he : (b i c).isEmpty
    · rw [if_pos he] at h
      injection h with h
      subst h
      refine ⟨(Field.isEmpty_iff _).mp he, ?_⟩
      intro j' hj' hlt
      rcases List.mem_cons.mp hj' with rfl | hmem
      · exact absurd hlt (lt_irrefl _)
      · exact absurd (hpw.1 j' hmem) (not_lt_of_lt hlt)
    · rw [if_neg he] at h
      obtain ⟨h1, h2⟩ := ih j hpw.2 h
      refine ⟨h1, ?_⟩
      intro j' hj' hlt
      rcases List.mem_cons.mp hj' with rfl | hmem
      · exact (Field.isEmpty_false_iff _).mp (Bool.of_not_eq_true he)
      · exact h2 j' hmem hlt

theorem scanCol_none_spec (b : Board) (c : Fin 7) :
    ∀ l : List (Fin 6), scanCol b c l = none → ∀ j ∈ l, b j c ≠ Field.Empty := by
  intro l
  induction l with
  | nil => intro _ j hj; simp at hj
  | cons i rest ih =>
    intro h j hj
    rw [scanCol] at h
    by_cases he : (b i c).isEmpty
    · rw [if_pos he] at h; exact Option.noConfusion h
    · rw [if_neg he] at h
      rcases List.mem_cons.mp hj with rfl | hmem
      · exact (Field.isEmpty_false_iff _).mp (Bool.of_not_eq_true he)
      · exact ih h j hmem

theorem scanCol_some_of (b : Board) (c : Fin 7) :
    ∀ (l : List (Fin 6)) (j : Fin 6), l.Pairwise (· < ·) → j ∈ l →
      b j c = Field.Empty → (∀ j' ∈ l, j' < j → b j' c ≠ Field.Empty) →
      scanCol b c l = some j := by
  intro l
  induction l with
  | nil => intro j _ hj; simp at hj
  | cons i rest ih =>
    intro j hpw hj hEmpty hMin
    rw [List.pairwise_cons] at hpw
    rw [scanCol]
    rcases List.mem_cons.mp hj with rfl | hmem
    · rw [if_pos ((Field.isEmpty_iff _).mpr hEmpty)]
    · have hij : i < j := hpw.1 j hmem
      have hne : b i c ≠ Field.Empty := hMin i (List.mem_cons_self i rest) hij
      rw [if_neg (by simp [Field.isEmpty_iff, hne])]
      exact ih j hpw.2 hmem hEmpty fun j' hj' hlt =>
        hMin j' (List.mem_cons_of_mem i hj') hlt

theorem findLanding_some_spec (b : Board) (c : Fin 7) (i : Fin 6)
    (h : findLanding b c = some i) :
    b i c = Field.Empty ∧ ∀ i' : Fin 6, i' < i → b i' c ≠ Field.Empty := by
  obtain ⟨h1, h2⟩ :=
    scanCol_some_spec b c (List.finRange 6) i (List.pairwise_lt_finRange 6) h
  exact ⟨h1, fun i' hlt => h2 i' (List.mem_finRange i') hlt⟩

theorem findLanding_none_spec (b : Board) (c : Fin 7)
    (h : findLanding b c = none) : ∀ i : Fin 6, b i c ≠ Field.Empty :=
  fun i => scanCol_none_spec b c (List.finRange 6) h i (List.mem_finRange i)

theorem findLanding_eq_some (b : Board) (c : Fin 7) (i : Fin 6)
    (hEmpty : b i c = Field.Empty)
    (hMin : ∀ i' : Fin 6, i' < i → b i' c ≠ Field.Empty) :
    findLanding b c = some i :=
  scanCol_some_of b c (List.finRange 6) i (List.pairwise_lt_finRange 6)
    (List.mem_finRange i) hEmpty fun i' _ hlt => hMin i' hlt

theorem findLanding_eq_none (b : Board) (c : Fin 7)
    (hFull : ∀ i : Fin 6, b i c ≠ Field.Empty) : findLanding b c = none := by
  cases h : findLanding b c with
  | none => rfl
  | some i => exact absurd (findLanding_some_spec b c i h).1 (hFull i)

theorem pushDigit_board (a : App) (c : Char) : (a.pushDigit c).board = a.board := by
  rw [App.pushDigit]; split <;> rfl

theorem pushDigit_turn (a : App) (c : Char) : (a.pushDigit c).turn = a.turn := by
  rw [App.pushDigit]; split <;> rfl

theorem popDigit_board (a : App) : a.popDigit.board = a.board := rfl

theorem popDigit_turn (a : App) : a.popDigit.turn = a.turn := rfl

theorem commit_turn_of_parse_none (a : App) (h : parseUsize a.input = none) :
    a.commit_turn = a := by
  simp only [App.commit_turn, h]

theorem commit_turn_of_out_of_range (a : App) (n : Nat)
    (hp : parseUsize a.input = some n) (h : n = 0 ∨ 7 < n) : a.commit_turn = a := by
  simp only [App.commit_turn, hp]
  rw [dif_pos h]

theorem commit_turn_of_landing_none (a : App) (n : Nat)
    (hp : parseUsize a.input = some n) (h : ¬(n = 0 ∨ 7 < n))
    (hf : findLanding a.board (colIndex n h) = none) : a.commit_turn = a := by
  simp only [App.commit_turn, hp]
  simp only [dif_neg h]
  rw [hf]

theorem commit_turn_of_landing_some (a : App) (n : Nat) (i : Fin 6)
    (hp : parseUsize a.input = some n) (h : ¬(n = 0 ∨ 7 < n))
    (hf : findLanding a.board (colIndex n h) = some i) :
    a.commit_turn =
      { board := fun i' c' =>
          if i' = i ∧ c' = colIndex n h then a.turn.toField else a.board i' c',
        turn := a.turn.other, input := [] } := by
  simp only [App.commit_turn, hp]
  simp only [dif_neg h]
  rw [hf]

theorem moveOk_of_parse_none (a : App) (h : parseUsize a.input = none) :
    a.moveOk = false := by
  simp only [App.moveOk, h]

theorem moveOk_of_out_of_range (a : App) (n : Nat)
    (hp : parseUsize a.input = some n) (h : n = 0 ∨ 7 < n) : a.moveOk = false := by
  simp only [App.moveOk, hp]
  rw [dif_pos h]

theorem moveOk_of_landing_none (a : App) (n : Nat)
    (hp : parseUsize a.input = some n) (h : ¬(n = 0 ∨ 7 < n))
    (hf : findLanding a.board (colIndex n h) = none) : a.moveOk = false := by
  simp only [App.moveOk, hp]
  simp only [dif_neg h]
  rw [hf]
  rfl

theorem moveOk_of_landing_some (a : App) (n : Nat) (i : Fin 6)
    (hp : parseUsize a.input = some n) (h : ¬(n = 0 ∨ 7 < n))
    (hf : findLanding a.board (colIndex n h) = some i) : a.moveOk = true := by
  simp only [App.moveOk, hp]
  simp only [dif_neg h]
  rw [hf]
  rfl

theorem commit_turn_turn (a : App) :
    a.commit_turn.turn = if a.moveOk then a.turn.other else a.turn := by
  cases hp : parseUsize a.input with
  | none => rw [commit_turn_of_parse_none a hp, moveOk_of_parse_none a hp]; rfl
  | some n =>
    by_cases h : n = 0 ∨ 7 < n
    · rw [commit_turn_of_out_of_range a n hp h, moveOk_of_out_of_range a n hp h]; rfl
    · cases hf : findLanding a.board (colIndex n h) with
      | none =>
        rw [commit_turn_of_landing_none a n hp h hf, moveOk_of_landing_none a n hp h hf]
        rfl
      | some i =>
        rw [commit_turn_of_landing_some a n i hp h hf, moveOk_of_landing_some a n i hp h hf]
        rfl

theorem commit_turn_board_cases (a : App) :
    a.commit_turn.board = a.board ∨
    ∃ (c : Fin 7) (i : Fin 6), findLanding a.board c = some i ∧
      a.commit_turn.board =
        fun i' c' => if i' = i ∧ c' = c then a.turn.toField else a.board i' c' := by
  cases hp : parseUsize a.input with
  | none => left; rw [commit_turn_of_parse_none a hp]
  | some n =>
    by_cases h : n = 0 ∨ 7 < n
    · left; rw [commit_turn_of_out_of_range a n hp h]
    · cases hf : findLanding a.board (colIndex n h) with
      | none => left; rw [commit_turn_of_landing_none a n hp h hf]
      | some i =>
        right
        exact ⟨colIndex n h, i, hf, by rw [commit_turn_of_landing_some a n i hp h hf]⟩

theorem foldl_digits_le (cs : List Char) :
    ∀ acc : Nat, acc ≤ cs.foldl (fun acc ch => acc * 10 + (ch.toNat - 48)) acc := by
  induction cs with
  | nil => intro acc; exact le_refl acc
  | cons ch rest ih =>
    intro acc
    calc acc ≤ acc * 10 + (ch.toNat - 48) := by omega
    _ ≤ _ := ih (acc * 10 + (ch.toNat - 48))

theorem parseDigitsAcc_eq_foldl (cs : List Char) :
    ∀ acc : Nat, (∀ ch ∈ cs, ch.isDigit = true) →
      cs.foldl (fun acc ch => acc * 10 + (ch.toNat - 48)) acc < 2 ^ 64 →
      parseDigitsAcc acc cs =
        some (cs.foldl (fun acc ch => acc * 10 + (ch.toNat - 48)) acc) := by
  induction cs with
  | nil => intro acc _ _; rfl
  | cons ch rest ih =>
    intro acc hd hlt
    rw [List.foldl_cons] at hlt ⊢
    rw [parseDigitsAcc]
    rw [if_pos (hd ch (List.mem_cons_self ch rest))]
    have hle := foldl_digits_le rest (acc * 10 + (ch.toNat - 48))
    rw [if_pos (lt_of_le_of_lt hle hlt)]
    exact ih (acc * 10 + (ch.toNat - 48)) (fun c hc => hd c (List.mem_cons_of_mem ch hc)) hlt

theorem parseUsize_digits (cs : List Char) (hne : cs ≠ [])
    (hd : ∀ ch ∈ cs, ch.isDigit = true) (hlt : natValue cs < 2 ^ 64) :
    parseUsize cs = some (natValue cs) := by
  cases cs with
  | nil => exact absurd rfl hne
  | cons ch rest =>
    have hch : ch.isDigit = true := hd ch (List.mem_cons_self ch rest)
    have hplus : ¬ch = '+' := by
      intro e
      rw [e] at hch
      exact absurd hch (by decide)
    rw [parseUsize, if_neg hplus]
    exact parseDigitsAcc_eq_foldl (ch :: rest) 0 hd hlt

theorem gravity_update (b : Board) (c : Fin 7) (i : Fin 6) (t : Turn)
    (hMin : ∀ i' : Fin 6, i' < i → b i' c ≠ Field.Empty) (hg : gravityOK b) :
    gravityOK (fun i' c' => if i' = i ∧ c' = c then t.toField else b i' c') := by
  intro j i1 i2 h1 h2
  simp only at h1 h2
  by_cases hc1 : i1 = i ∧ j = c
  · rw [if_pos hc1] at h1
    exact absurd h1 (Turn.toField_ne_empty t)
  · rw [if_neg hc1] at h1
    by_cases hc2 : i2 = i ∧ j = c
    · obtain ⟨rfl, rfl⟩ := hc2
      have hnlt : ¬(i1 < i2) := fun hlt => hMin i1 hlt h1
      have hne : i1 ≠ i2 := fun e => hc1 ⟨e, rfl⟩
      exact lt_of_le_of_ne (not_lt.mp hnlt) (Ne.symm hne)
    · rw [if_neg hc2] at h2
      exact hg j i1 i2 h1 h2

theorem gravity_step (a : App) (op : Op) (hg : gravityOK a.board) :
    gravityOK ((applyOp a op).board) := by
  cases op with
  | push c =>
    show gravityOK (a.pushDigit c).board
    rw [pushDigit_board]
    exact hg
  | pop =>
    show gravityOK a.popDigit.board
    rw [popDigit_board]
    exact hg
  | commit =>
    show gravityOK a.commit_turn.board
    rcases commit_turn_board_cases a with h | ⟨c, i, hf, h⟩
    · rw [h]; exact hg
    · rw [h]
      exact gravity_update a.board c i a.turn (findLanding_some_spec a.board c i hf).2 hg

theorem alternation_general (ops : List Op) :
    ∀ a : App, (applyOps a ops).turn =
      if countPlacements a ops % 2 = 0 then a.turn else a.turn.other := by
  induction ops with
  | nil => intro a; rfl
  | cons op rest ih =>
    intro a
    cases op with
    | push c =>
      have h1 : applyOps a (Op.push c :: rest) = applyOps (a.pushDigit c) rest := rfl
      have h2 : countPlacements a (Op.push c :: rest) =
          countPlacements (a.pushDigit c) rest := rfl
      rw [h1, h2, ih (a.pushDigit c), pushDigit_turn]
    | pop =>
      have h1 : applyOps a (Op.pop :: rest) = applyOps a.popDigit rest := rfl
      have h2 : countPlacements a (Op.pop :: rest) = countPlacements a.popDigit rest := rfl
      rw [h1, h2, ih a.popDigit, popDigit_turn]
    | commit =>
      have h1 : applyOps a (Op.commit :: rest) = applyOps a.commit_turn rest := rfl
      have h2 : countPlacements a (Op.commit :: rest) =
          (if a.moveOk then 1 else 0) + countPlacements a.commit_turn rest := rfl
      rw [h1, h2, ih a.commit_turn, commit_turn_turn]
      cases hm : a.moveOk with
      | false => simp
      | true =>
        simp only [if_true, Turn.other_other]
        by_cases hc : countPlacements a.commit_turn rest % 2 = 0
        · rw [if_pos hc,
            if_neg (show ¬((1 + countPlacements a.commit_turn rest) % 2 = 0) by omega)]
        · rw [if_neg hc,
            if_pos (show (1 + countPlacements a.commit_turn rest) % 2 = 0 by omega)]

theorem fieldRect_eq_some (i : Fin 6) (j : Fin 7) (f : Field) (r : Rectangle) :
    fieldRect i j f = some r ↔
      (f = Field.Red ∧ r = ⟨(j : Nat) * 50, (i : Nat) * 50, 40, 40, RectColor.Red⟩) ∨
      (f = Field.Blue ∧ r = ⟨(j : Nat) * 50, (i : Nat) * 50, 40, 40, RectColor.Blue⟩) := by
  cases f <;> simp [fieldRect, eq_comm]

theorem fieldRect_coords (i : Fin 6) (j : Fin 7) (f : Field) (r : Rectangle)
    (h : fieldRect i j f = some r) : r.x = (j : Nat) * 50 ∧ r.y = (i : Nat) * 50 := by
  rcases (fieldRect_eq_some i j f r).mp h with ⟨_, rfl⟩ | ⟨_, rfl⟩ <;> exact ⟨rfl, rfl⟩

theorem boardRects_nodup (b : Board) : (boardRects b).Nodup := by
  rw [boardRects, List.nodup_flatMap]
  constructor
  · intro i _
    refine List.Nodup.filterMap ?_ (List.nodup_finRange 7)
    intro j j' r hj hj'
    have h1 := (fieldRect_coords i j (b i j) r (Option.mem_def.mp hj)).1
    have h2 := (fieldRect_coords i j' (b i j') r (Option.mem_def.mp hj')).1
    apply Fin.ext
    have : (j : Nat) * 50 = (j' : Nat) * 50 := h1 ▸ h2 ▸ rfl
    omega
  · refine List.Pairwise.imp ?_ (List.pairwise_lt_finRange 6)
    intro i i' hlt
    intro r hr hr'
    rw [List.mem_filterMap] at hr hr'
    obtain ⟨j, _, hj⟩ := hr
    obtain ⟨j', _, hj'⟩ := hr'
    have h1 := (fieldRect_coords i j (b i j) r hj).2
    have h2 := (fieldRect_coords i' j' (b i' j') r hj').2
    have : (i : Nat) * 50 = (i' : Nat) * 50 := h1 ▸ h2 ▸ rfl
    have : (i : Nat) = (i' : Nat) := by omega
    exact absurd (Fin.ext this) (Fin.ne_of_lt hlt)

/-- C1: if column `k` (0-indexed) has an Empty cell whose lowest Empty row is
`i`, and the pending buffer parses to `k + 1`, then `commit_turn` places the
current player's token at cell `(i, k)`, switches the active player to the
other player, and clears the pending buffer. -/
theorem commit_turn_valid_move (a : App) (k : Fin 7) (i : Fin 6)
    (hEmpty : a.board i k = Field.Empty)
    (hLowest : ∀ i' : Fin 6, i' < i → a.board i' k ≠ Field.Empty)
    (hParse : parseUsize a.input = some ((k : Nat) + 1)) :
    a.commit_turn =
      { board := fun i' c' =>
          if i' = i ∧ c' = k then a.turn.toField else a.board i' c',
        turn := a.turn.other, input := [] } := by
  have hk := k.isLt
  have h : ¬((k : Nat) + 1 = 0 ∨ 7 < (k : Nat) + 1) := by omega
  have hcol : colIndex ((k : Nat) + 1) h = k := Fin.ext (by simp [colIndex])
  have hf : findLanding a.board (colIndex ((k : Nat) + 1) h) = some i := by
    rw [hcol]
    exact findLanding_eq_some a.board k i hEmpty hLowest
  rw [commit_turn_of_landing_some a ((k : Nat) + 1) i hParse h hf, hcol]

/-- Witness for C1: on the all-Empty board with Red to move and buffer "4",
`commit_turn` places Red at row 0 of column 3, switches to Blue, and clears
the buffer. -/
theorem commit_turn_valid_move_witness :
    (App.mk (fun _ _ => Field.Empty) Turn.Red ['4']).commit_turn =
      App.mk
        (fun i' c' =>
          if i' = (0 : Fin 6) ∧ c' = (3 : Fin 7) then Field.Red else Field.Empty)
        Turn.Blue [] :=
  commit_turn_valid_move (App.mk (fun _ _ => Field.Empty) Turn.Red ['4']) 3 0
    (by decide) (by decide) (by decide)

/-- C2: if column `k` is entirely full and the pending buffer parses to
`k + 1`, `commit_turn` returns the state unchanged: same board, same active
player, and the pending buffer is retained, not cleared. -/
theorem commit_turn_full_column (a : App) (k : Fin 7)
    (hFull : ∀ i : Fin 6, a.board i k ≠ Field.Empty)
    (hParse : parseUsize a.input = some ((k : Nat) + 1)) :
    a.commit_turn = a := by
  have hk := k.isLt
  have h : ¬((k : Nat) + 1 = 0 ∨ 7 < (k : Nat) + 1) := by omega
  have hcol : colIndex ((k : Nat) + 1) h = k := Fin.ext (by simp [colIndex])
  have hf : findLanding a.board (colIndex ((k : Nat) + 1) h) = none := by
    rw [hcol]
    exact findLanding_eq_none a.board k hFull
  exact commit_turn_of_landing_none a ((k : Nat) + 1) hParse h hf

/-- Witness for C2: with column 0 completely full of Red tokens and buffer
"1", `commit_turn` is the identity, buffer included. -/
theorem commit_turn_full_column_witness :
    (App.mk (fun _ j => if j = (0 : Fin 7) then Field.Red else Field.Empty)
        Turn.Red ['1']).commit_turn =
      App.mk (fun _ j => if j = (0 : Fin 7) then Field.Red else Field.Empty)
        Turn.Red ['1'] :=
  commit_turn_full_column
    (App.mk (fun _ j => if j = (0 : Fin 7) then Field.Red else Field.Empty)
      Turn.Red ['1'])
    0 (by decide) (by decide)

/-- C3: whenever the pending buffer fails to parse as a `usize` (empty,
non-numeric, or overflowing), `commit_turn` is a complete no-op: board,
active player and pending buffer are all unchanged. -/
theorem commit_turn_parse_failure_noop (a : App)
    (h : parseUsize a.input = none) : a.commit_turn = a :=
  commit_turn_of_parse_none a h

/-- Witness for C3: with an empty pending buffer, `commit_turn` is the
identity. -/
theorem commit_turn_parse_failure_noop_witness :
    (App.mk (fun _ _ => Field.Empty) Turn.Red []).commit_turn =
      App.mk (fun _ _ => Field.Empty) Turn.Red [] :=
  commit_turn_parse_failure_noop (App.mk (fun _ _ => Field.Empty) Turn.Red [])
    (by decide)

/-- C4: whenever the pending buffer parses to `n` with `n = 0` or `n > 7`,
`commit_turn` leaves the board, the active player, and the pending buffer
unchanged. -/
theorem commit_turn_out_of_range_noop (a : App) (n : Nat)
    (hParse : parseUsize a.input = some n) (h : n = 0 ∨ 7 < n) :
    a.commit_turn = a :=
  commit_turn_of_out_of_range a n hParse h

/-- Witness for C4: with buffer "8" (column number out of range),
`commit_turn` is the identity. -/
theorem commit_turn_out_of_range_noop_witness :
    (App.mk (fun _ _ => Field.Empty) Turn.Red ['8']).commit_turn =
      App.mk (fun _ _ => Field.Empty) Turn.Red ['8'] :=
  commit_turn_out_of_range_noop (App.mk (fun _ _ => Field.Empty) Turn.Red ['8'])
    8 (by decide) (by decide)

/-- C5: every state reachable from the initial all-Empty board by any
sequence of push_digit, pop_digit and commit_turn operations satisfies the
gravity invariant: in each column, every Empty cell lies strictly above
every non-Empty cell. -/
theorem gravity_invariant_reachable (ops : List Op) :
    gravityOK ((applyOps App.new ops).board) := by
  have hgen : ∀ (l : List Op) (a : App),
      gravityOK a.board → gravityOK ((applyOps a l).board) := by
    intro l
    induction l with
    | nil => intro a h; exact h
    | cons op rest ih => intro a h; exact ih (applyOp a op) (gravity_step a op h)
  refine hgen ops App.new ?_
  intro j i i' h1 h2
  exact absurd rfl h2

/-- C6: starting from the initial state (Red = First to move), after any
sequence of operations the active player is Red exactly when the number of
successful placements so far is even, and Blue when it is odd. -/
theorem player_alternation (ops : List Op) :
    (applyOps App.new ops).turn =
      if countPlacements App.new ops % 2 = 0 then Turn.Red else Turn.Blue := by
  rw [alternation_general ops App.new]
  rfl

/-- C7 counterexample: pushing the digit '1' onto the initial state changes
the pending input buffer, which is part of the game state; so `commit_turn`
is not the only operation mutating the game state. -/
theorem pushDigit_mutates_state :
    (App.new.pushDigit '1').input ≠ App.new.input := by decide

/-- C7 amended: the board and the active player are mutated only by
`commit_turn`; the digit-push and backspace operations mutate only the
pending input buffer, leaving board and active player unchanged. -/
theorem push_pop_mutate_only_buffer (a : App) (c : Char) :
    (a.pushDigit c).board = a.board ∧ (a.pushDigit c).turn = a.turn ∧
    a.popDigit.board = a.board ∧ a.popDigit.turn = a.turn :=
  ⟨pushDigit_board a c, pushDigit_turn a c, popDigit_board a, popDigit_turn a⟩

/-- C8: the board projection emits a duplicate-free list of rectangles, and
a rectangle is emitted exactly for each non-Empty cell: a 40x40 rectangle at
`(column * 50, row * 50)` colored by the owning player; Empty cells emit
nothing. -/
theorem board_canvas_rectangles (b : Board) :
    (boardRects b).Nodup ∧
    ∀ r : Rectangle, r ∈ boardRects b ↔
      ∃ (i : Fin 6) (j : Fin 7),
        (b i j = Field.Red ∧
          r = ⟨(j : Nat) * 50, (i : Nat) * 50, 40, 40, RectColor.Red⟩) ∨
        (b i j = Field.Blue ∧
          r = ⟨(j : Nat) * 50, (i : Nat) * 50, 40, 40, RectColor.Blue⟩) := by
  refine ⟨boardRects_nodup b, ?_⟩
  intro r
  rw [boardRects]
  simp only [List.mem_flatMap, List.mem_filterMap, List.mem_finRange, true_and,
    fieldRect_eq_some]

/-- C9: frame property of a successful commit: the landing cell was Empty
and is set to the current player's token, the landing row is the lowest
Empty row of the chosen column, and every other cell of the board is
unchanged. -/
theorem commit_turn_frame_effect (a : App) (n : Nat) (i : Fin 6)
    (hParse : parseUsize a.input = some n) (hRange : ¬(n = 0 ∨ 7 < n))
    (hf : findLanding a.board (colIndex n hRange) = some i) :
    a.commit_turn.board i (colIndex n hRange) = a.turn.toField ∧
    a.board i (colIndex n hRange) = Field.Empty ∧
    (∀ i' : Fin 6, i' < i → a.board i' (colIndex n hRange) ≠ Field.Empty) ∧
    ∀ (i' : Fin 6) (j' : Fin 7), ¬(i' = i ∧ j' = colIndex n hRange) →
      a.commit_turn.board i' j' = a.board i' j' := by
  obtain ⟨hE, hM⟩ := findLanding_some_spec a.board (colIndex n hRange) i hf
  have hct := commit_turn_of_landing_some a n i hParse hRange hf
  refine ⟨?_, hE, hM, ?_⟩
  · rw [hct]
    simp
  · intro i' j' hne
    rw [hct]
    show (if i' = i ∧ j' = colIndex n hRange then a.turn.toField
      else a.board i' j') = a.board i' j'
    rw [if_neg hne]

/-- Witness for C9: committing "4" on the all-Empty board sets the landing
cell (row 0 of column 3) to Red. -/
theorem commit_turn_frame_effect_witness :
    (App.mk (fun _ _ => Field.Empty) Turn.Red ['4']).commit_turn.board 0
      (colIndex 4 (by decide)) = Turn.Red.toField :=
  (commit_turn_frame_effect (App.mk (fun _ _ => Field.Empty) Turn.Red ['4'])
    4 0 (by decide) (by decide) (by decide)).1

/-- C10: a pending buffer made of decimal digits whose value `n` is in
`[1, 7]` parses to `n` regardless of leading zeros, and `commit_turn`
behaves as it does on the canonical decimal representation of `n`: same
resulting board and active player, and the identical resulting state
whenever the move actually places a token. -/
theorem commit_turn_leading_zeros (a : App)
    (hne : a.input ≠ []) (hd : ∀ ch ∈ a.input, ch.isDigit = true)
    (h1 : 1 ≤ natValue a.input) (h7 : natValue a.input ≤ 7) :
    parseUsize a.input = some (natValue a.input) ∧
    a.commit_turn.board =
      (App.mk a.board a.turn (Nat.toDigits 10 (natValue a.input))).commit_turn.board ∧
    a.commit_turn.turn =
      (App.mk a.board a.turn (Nat.toDigits 10 (natValue a.input))).commit_turn.turn ∧
    (a.moveOk = true →
      a.commit_turn =
        (App.mk a.board a.turn (Nat.toDigits 10 (natValue a.input))).commit_turn) := by
  have hlt : natValue a.input < 2 ^ 64 := lt_of_le_of_lt h7 (by norm_num)
  have hpa : parseUsize a.input = some (natValue a.input) :=
    parseUsize_digits a.input hne hd hlt
  have hpc : parseUsize (Nat.toDigits 10 (natValue a.input)) =
      some (natValue a.input) := by
    rcases (by omega :
        natValue a.input = 1 ∨ natValue a.input = 2 ∨ natValue a.input = 3 ∨
        natValue a.input = 4 ∨ natValue a.input = 5 ∨ natValue a.input = 6 ∨
        natValue a.input = 7) with h | h | h | h | h | h | h <;> rw [h] <;> decide
  have hR : ¬(natValue a.input = 0 ∨ 7 < natValue a.input) := by omega
  have hpc' :
      parseUsize (App.mk a.board a.turn (Nat.toDigits 10 (natValue a.input))).input =
        some (natValue a.input) := hpc
  cases hf : findLanding a.board (colIndex (natValue a.input) hR) with
  | none =>
    have e1 := commit_turn_of_landing_none a (natValue a.input) hpa hR hf
    have e2 := commit_turn_of_landing_none
      (App.mk a.board a.turn (Nat.toDigits 10 (natValue a.input)))
      (natValue a.input) hpc' hR hf
    rw [e1, e2]
    refine ⟨hpa, rfl, rfl, ?_⟩
    intro hmk
    have hok := moveOk_of_landing_none a (natValue a.input) hpa hR hf
    rw [hok] at hmk
    exact Bool.noConfusion hmk
  | some i =>
    have e1 := commit_turn_of_landing_some a (natValue a.input) i hpa hR hf
    have e2 := commit_turn_of_landing_some
      (App.mk a.board a.turn (Nat.toDigits 10 (natValue a.input)))
      (natValue a.input) i hpc' hR hf
    rw [e1, e2]
    exact ⟨hpa, rfl, rfl, fun _ => rfl⟩

/-- Witness for C10: the buffer "007" parses to 7, the value the canonical
buffer "7" parses to. -/
theorem commit_turn_leading_zeros_witness :
    parseUsize ['0', '0', '7'] = some (natValue ['0', '0', '7']) :=
  (commit_turn_leading_zeros
    (App.mk (fun _ _ => Field.Empty) Turn.Red ['0', '0', '7'])
    (by decide) (by decide) (by decide) (by decide)).1

end CF
